import Mathlib

/-!
Verification of `scarb-clean-all` (src/src/main.rs) against its specification.

The program has two parts:

* `find_scarb_workspaces` walks a directory tree with `jwalk::WalkDir`,
  using a `process_read_dir` hook that, whenever a directory's children
  contain a regular file named `Scarb.toml`, removes all directory children
  (so traversal never descends below a workspace root), and collects the
  parent directory of every yielded regular file named `Scarb.toml` into a
  `BTreeSet<PathBuf>`.
* `main` confirms with the user, computes a job bound from the
  `SCARB_CLEAN_JOBS` environment variable, and runs `scarb --manifest-path
  <ws>/Scarb.toml clean` once per workspace on a rayon thread pool of
  exactly `jobs` threads, counting failures and exiting 1 iff any occurred.

The filesystem is modelled as a pure tree.  `jwalk::WalkDir` is used with
its default options, which are `skip_hidden = true` (entries whose name
starts with `.` are skipped) and `follow_links = false` (symbolic links are
yielded with a symlink file type — neither `is_file` nor `is_dir` — and are
never descended into).  Both defaults are reflected in the model below.

Paths are modelled as lists of components relative to the traversal root;
`BTreeSet<PathBuf>` order is the lexicographic order on component lists
with the byte order on components (for valid UTF-8, bytewise order of the
encoding coincides with code-point order, which is the order used here).
-/

namespace ScarbCleanAll

/-- A filesystem directory entry: a regular file, a directory with its
children, or a symbolic link.  A symlink carries the entry list of its
target when the target is a directory; since the walker is configured with
`follow_links = false` the target is never read by the program, but keeping
it in the model lets us state (and refute) claims about markers that are
reachable only through symlinks. -/
inductive FsEntry : Type where
  | file (name : String)
  | dir (name : String) (children : List FsEntry)
  | symlink (name : String) (target : List FsEntry)

/-- The name of an entry, as returned by `entry.path().file_name()`. -/
def FsEntry.name : FsEntry → String
  | .file n => n
  | .dir n _ => n
  | .symlink n _ => n

/-- `entry.file_type().is_dir()` under `follow_links = false`: true only
for real directories; a symlink has the symlink file type. -/
def FsEntry.isDir : FsEntry → Bool
  | .dir _ _ => true
  | _ => false

/-- `entry.file_type().is_file()` under `follow_links = false`: true only
for regular files; a symlink has the symlink file type. -/
def FsEntry.isFile : FsEntry → Bool
  | .file _ => true
  | _ => false

/-- jwalk's `skip_hidden` test: the entry name starts with a dot. -/
def isHidden (n : String) : Bool := n.data.head? == some '.'

/-- The marker test from `process_read_dir` and from the yield loop:
`entry.path().file_name() == Some("Scarb.toml") && entry.file_type().is_file()`. -/
def entryIsMarker (e : FsEntry) : Bool := e.name == "Scarb.toml" && e.isFile

/-- `has_scarb_toml` over the children that jwalk presents (hidden entries
are skipped by the default `skip_hidden = true`). -/
def hasVisibleMarker (cs : List FsEntry) : Bool :=
  cs.any fun e => !isHidden e.name && entryIsMarker e

/-- Whether a children list contains a regular file named `Scarb.toml`
(no hidden filter; `"Scarb.toml"` never starts with a dot, so this agrees
with `hasVisibleMarker`, see `hasVisibleMarker_eq`). -/
def containsMarker (cs : List FsEntry) : Bool := cs.any entryIsMarker

mutual
/-- The workspaces contributed by one yielded entry at parent path `cur`.
A regular file named `Scarb.toml` makes the walk insert its parent; a
symlink is yielded but never descended (`follow_links = false`); a
directory is read with the `process_read_dir` hook: the hook computes
`has_scarb_toml` over the (hidden-skipped) children and, if set, retains
only non-directory children. -/
def walkEntry (cur : List String) : FsEntry → List (List String)
  | .file n => if n == "Scarb.toml" then [cur] else []
  | .symlink _ _ => []
  | .dir n cs => walkChildren (cur ++ [n]) (hasVisibleMarker cs) cs

/-- Walks a directory's children list.  `pruned` is the `has_scarb_toml`
flag of the enclosing directory: when it is set, directory children have
been removed by `children.retain(...)` in `process_read_dir`, so they are
neither yielded nor descended.  Hidden children are skipped by jwalk's
default `skip_hidden = true`. -/
def walkChildren (cur : List String) (pruned : Bool) : List FsEntry → List (List String)
  | [] => []
  | e :: es =>
      (if isHidden e.name then []
       else if pruned && e.isDir then []
       else walkEntry cur e) ++ walkChildren cur pruned es
end

/-- Strict lexicographic order on character lists by code point.  For valid
UTF-8, bytewise order of the encodings (the order `OsStr` uses) coincides
with code-point order, so this models the component comparison of `Path`. -/
def lexLtB : List Char → List Char → Bool
  | [], [] => false
  | [], _ :: _ => true
  | _ :: _, [] => false
  | a :: as, b :: bs =>
      if a.toNat < b.toNat then true
      else if b.toNat < a.toNat then false
      else lexLtB as bs

/-- Strict order on path components (`OsStr` comparison). -/
def strLtB (a b : String) : Bool := lexLtB a.data b.data

/-- Strict lexicographic order on path component lists, mirroring the
`Ord` instance of `PathBuf` (component-by-component, components compared
bytewise). -/
def pathLtB : List String → List String → Bool
  | [], [] => false
  | [], _ :: _ => true
  | _ :: _, [] => false
  | a :: as, b :: bs =>
      if strLtB a b then true
      else if strLtB b a then false
      else pathLtB as bs

/-- One `BTreeSet::insert`: insert into a strictly sorted list, keeping it
sorted and dropping the element if an equal one is present. -/
def insertPath (p : List String) : List (List String) → List (List String)
  | [] => [p]
  | q :: qs =>
      if pathLtB p q then p :: q :: qs
      else if pathLtB q p then q :: insertPath p qs
      else q :: qs

/-- `find_scarb_workspaces` from src/src/main.rs: walk the tree rooted at
the given children list (the root directory itself is yielded by jwalk but
is a directory, so it inserts nothing) and collect parents of yielded
`Scarb.toml` regular files into a `BTreeSet`, here a strictly sorted list.
The root's own read also goes through `process_read_dir`, hence the
`hasVisibleMarker root` flag. -/
def find_scarb_workspaces (root : List FsEntry) : List (List String) :=
  (walkChildren [] (hasVisibleMarker root) root).foldl (fun s p => insertPath p s) []

/-- The path order as a proposition. -/
def pathLt (a b : List String) : Prop := pathLtB a b = true

/-- Looks up a directory child by name (unique under `wfList`). -/
def findDir : List FsEntry → String → Option (List FsEntry)
  | [], _ => none
  | .dir m ds :: es, n => if m == n then some ds else findDir es n
  | _ :: es, n => findDir es n

/-- The children list of the directory at a relative path, descending only
through real directory entries. -/
def dirAt (cs : List FsEntry) : List String → Option (List FsEntry)
  | [] => some cs
  | n :: rest =>
      match findDir cs n with
      | some ds => dirAt ds rest
      | none => none

/-- Whether the directory at path `p` exists and directly contains the
marker file `Scarb.toml` as a regular file. -/
def markerAt (cs : List FsEntry) (p : List String) : Bool :=
  match dirAt cs p with
  | some ds => containsMarker ds
  | none => false

/-- Level-by-level characterisation of the paths the pruned traversal
reports: the empty path is reported exactly when the directory directly
contains the marker; a longer path is reported when the directory does not
contain the marker and the path continues through a non-hidden real
subdirectory. -/
def ReachesB (cs : List FsEntry) : List String → Bool
  | [] => containsMarker cs
  | n :: rest =>
      !containsMarker cs && !isHidden n &&
        (match findDir cs n with
         | some ds => ReachesB ds rest
         | none => false)

mutual
/-- Well-formedness of an entry: directory children lists carry pairwise
distinct names, as read from a real filesystem. -/
def wfEntry : FsEntry → Bool
  | .file _ => true
  | .symlink _ _ => true
  | .dir _ cs => wfList cs

/-- Well-formedness of a children list: names pairwise distinct,
subdirectories well-formed. -/
def wfList : List FsEntry → Bool
  | [] => true
  | e :: es => wfEntry e && !(es.any fun x => x.name == e.name) && wfList es
end

/-- Example tree (the spec's scenario): workspace `A` with nested marker
`A/sub`, workspace `B`, and a marker-free `C`. -/
def exTreeNested : List FsEntry :=
  [.dir "A" [.file "Scarb.toml", .dir "sub" [.file "Scarb.toml"]],
   .dir "B" [.file "Scarb.toml"],
   .dir "C" [.dir "no-manifest" []]]

/-- Example tree: the only marker lies inside a hidden directory. -/
def exTreeHidden : List FsEntry := [.dir ".hidden" [.file "Scarb.toml"]]

/-- Example tree: the only marker is reachable only through a symlinked
directory. -/
def exTreeSymlink : List FsEntry := [.symlink "link" [.file "Scarb.toml"]]

/-- Example tree: entries named `Scarb.toml` that are not regular files
(a symlink and a directory), plus a real nested workspace. -/
def exTreeFakeMarkers : List FsEntry :=
  [.symlink "Scarb.toml" [], .dir "Scarb.toml" [], .dir "sub" [.file "Scarb.toml"]]

/-- Reordering of sibling lists at every level: the same entries, possibly
in a different order, with directory children reordered recursively.  Two
reads of one on-disk tree under different filesystem iteration orders are
related by this relation. -/
inductive ForestPerm : List FsEntry → List FsEntry → Prop where
  | nil : ForestPerm [] []
  | consFile (n : String) {cs cs' : List FsEntry} : ForestPerm cs cs' →
      ForestPerm (.file n :: cs) (.file n :: cs')
  | consSymlink (n : String) (t : List FsEntry) {cs cs' : List FsEntry} :
      ForestPerm cs cs' → ForestPerm (.symlink n t :: cs) (.symlink n t :: cs')
  | consDir (n : String) {ds ds' cs cs' : List FsEntry} : ForestPerm ds ds' →
      ForestPerm cs cs' → ForestPerm (.dir n ds :: cs) (.dir n ds' :: cs')
  | swap (e1 e2 : FsEntry) (cs : List FsEntry) :
      ForestPerm (e1 :: e2 :: cs) (e2 :: e1 :: cs)
  | trans {cs1 cs2 cs3 : List FsEntry} : ForestPerm cs1 cs2 → ForestPerm cs2 cs3 →
      ForestPerm cs1 cs3

mutual
/-- Replaces every symlink target by the empty list, recursively:
the part of the tree that is reachable only through symlinks. -/
def stripSymlinkEntry : FsEntry → FsEntry
  | .file n => .file n
  | .symlink n _ => .symlink n []
  | .dir n cs => .dir n (stripSymlinkList cs)

/-- `stripSymlinkEntry` mapped over a children list. -/
def stripSymlinkList : List FsEntry → List FsEntry
  | [] => []
  | e :: es => stripSymlinkEntry e :: stripSymlinkList es
end

/-- The status of one `Command::status()` call: `Ok(exit_status)` with its
`success()` bit, or `Err(_)` (the process failed to launch). -/
inductive JobStatus : Type where
  | exited (success : Bool)
  | launchFailure

/-- Whether a job outcome is counted as a success by the reporting loop. -/
def isSuccess : JobStatus → Bool
  | .exited b => b
  | .launchFailure => false

/-- An argument of a spawned command: a plain string or a path. -/
inductive Arg : Type where
  | lit (s : String)
  | path (p : List String)
  deriving DecidableEq

/-- The observable configuration of one spawned `Command`. -/
structure CommandSpec : Type where
  program : String
  args : List Arg
  envRemoved : List String
  currentDir : List String
  deriving DecidableEq

/-- The command built per workspace in `main`:
`Command::new("scarb").arg("--manifest-path").arg(workspace.join("Scarb.toml"))
.arg("clean").env_remove("SCARB_MANIFEST_PATH").current_dir(workspace).status()`. -/
def cleanCommand (w : List String) : CommandSpec :=
  { program := "scarb"
  , args := [.lit "--manifest-path", .path (w ++ ["Scarb.toml"]), .lit "clean"]
  , envRemoved := ["SCARB_MANIFEST_PATH"]
  , currentDir := w }

/-- `par_iter().map(...).collect::<Vec<_>>()`: one `(workspace, status)`
pair per workspace, in input order (rayon's indexed collect preserves
order). -/
def mainResults (ws : List (List String)) (f : List String → JobStatus) :
    List ((List String) × JobStatus) :=
  ws.map fun w => (w, f w)

/-- The failure-counting loop of `main`: `failures` starts at `0` and is
incremented once for every `Ok`-with-nonzero-exit or `Err` result. -/
def countFailures (rs : List ((List String) × JobStatus)) : Nat :=
  rs.foldl (fun acc r => if isSuccess r.2 then acc else acc + 1) 0

/-- The exit code and spawned commands of a `main` run that got past
startup, as a function of the discovered workspace list, the confirmation
answer, and the per-workspace job outcome: an empty list prints a notice
and returns (exit 0); a declined confirmation prints `Aborted.` and
returns (exit 0) spawning nothing; otherwise one command per workspace is
run and the process exits 1 iff the failure count is nonzero. -/
structure MainRun : Type where
  exitCode : Nat
  invocations : List CommandSpec

/-- See `MainRun`. -/
def runMain (ws : List (List String)) (confirmed : Bool)
    (f : List String → JobStatus) : MainRun :=
  if ws.isEmpty then ⟨0, []⟩
  else if !confirmed then ⟨0, []⟩
  else
    ⟨if countFailures (mainResults ws f) = 0 then 0 else 1, ws.map cleanCommand⟩

/-- `str::trim` (restricted to the ASCII whitespace the inputs of interest
contain; Rust trims all Unicode `White_Space` code points). -/
def rustTrim (s : String) : String :=
  ⟨((s.data.dropWhile Char.isWhitespace).reverse.dropWhile Char.isWhitespace).reverse⟩

/-- `str::to_ascii_lowercase`: ASCII letters `A`–`Z` shifted to lowercase,
all other characters unchanged. -/
def toAsciiLowercase (s : String) : String :=
  ⟨s.data.map fun c => if 65 ≤ c.toNat ∧ c.toNat ≤ 90 then Char.ofNat (c.toNat + 32) else c⟩

/-- `str::parse::<usize>` on a 64-bit target: an optional leading `+`,
then one or more ASCII digits; anything else, the empty string, and
values that overflow `usize` are rejected. -/
def parseUsize (s : String) : Option Nat :=
  let ds := match s.data with
    | '+' :: rest => rest
    | cs => cs
  if ds ≠ [] ∧ ds.all Char.isDigit then
    let v := ds.foldl (fun a c => a * 10 + (c.toNat - 48)) 0
    if v < 2 ^ 64 then some v else none
  else none

/-- `parse_jobs_from_env` from src/src/main.rs: unset variable → `None`;
`Ok(0)` → diagnostic and `None`; `Ok(v)` → `Some v`; parse error →
diagnostic and `None`.  The environment variable's value is passed in as
an `Option String`. -/
def parse_jobs_from_env (env : Option String) : Option Nat :=
  match env with
  | none => none
  | some raw =>
      match parseUsize (rustTrim raw) with
      | some 0 => none
      | some v => some v
      | none => none

/-- Lines 37–38 of `main`:
`max_jobs = parse_jobs_from_env().unwrap_or_else(|| len.max(1))` and
`jobs = max_jobs.min(len.max(1))`, where `len` is the number of
workspaces. -/
def effective_jobs (env : Option String) (n : Nat) : Nat :=
  min ((parse_jobs_from_env env).getD (max n 1)) (max n 1)

/-- `ask_for_confirmation` from src/src/main.rs: a failed stdout flush or
a failed `read_line` is a negative answer; otherwise the read line is
trimmed, ASCII-lowercased and compared with `"y"` and `"yes"`. -/
def ask_for_confirmation (flushOk : Bool) (readLine : Option String) : Bool :=
  if !flushOk then false
  else
    match readLine with
    | none => false
    | some input =>
        let normalized := toAsciiLowercase (rustTrim input)
        normalized == "y" || normalized == "yes"

/-- A state of the worker pool: queued, in-flight, and completed
workspaces. -/
structure PoolState : Type where
  pending : List (List String)
  inFlight : List (List String)
  done : List (List String)

/-- Modelled from the spec: the scheduler of the rayon thread pool built by
`ThreadPoolBuilder::new().num_threads(jobs)` — the crate's scheduling is
outside src/.  A pool with `w` worker threads may start a queued task only
while fewer than `w` tasks are in flight (the pool is sized exactly to the
job bound, so the bound is a hard cap on concurrently running clean
commands), and may complete any in-flight task in any order. -/
inductive PoolStep (w : Nat) : PoolState → PoolState → Prop where
  | start (t : List String) (rest fl d : List (List String)) :
      fl.length < w →
      PoolStep w ⟨t :: rest, fl, d⟩ ⟨rest, t :: fl, d⟩
  | finish (t : List String) (p fl d : List (List String)) :
      t ∈ fl →
      PoolStep w ⟨p, fl, d⟩ ⟨p, fl.erase t, t :: d⟩

/-- Reachability of pool states by any number of scheduler steps. -/
def PoolReach (w : Nat) : PoolState → PoolState → Prop :=
  Relation.ReflTransGen (PoolStep w)

theorem lexLtB_irrefl (l : List Char) : lexLtB l l = false := by
  induction l with
  | nil => rfl
  | cons a as ih => simp [lexLtB, ih]

theorem lexLtB_asymm : ∀ {l m : List Char}, lexLtB l m = true → lexLtB m l = false
  | [], [], h => by simp [lexLtB] at h
  | [], _ :: _, _ => by simp [lexLtB]
  | _ :: _, [], h => by simp [lexLtB] at h
  | a :: as, b :: bs, h => by
      simp only [lexLtB] at h ⊢
      by_cases h1 : a.toNat < b.toNat
      · have h2 : ¬ b.toNat < a.toNat := by omega
        simp [h1, h2]
      · by_cases h2 : b.toNat < a.toNat
        · simp [h1, h2] at h
        · simp only [h1, h2, if_false] at h ⊢
          simpa using lexLtB_asymm (by simpa using h)

theorem lexLtB_trans : ∀ {l m n : List Char},
    lexLtB l m = true → lexLtB m n = true → lexLtB l n = true
  | [], _ :: _, _ :: _, _, _ => by simp [lexLtB]
  | [], _ :: _, [], _, h2 => by simp [lexLtB] at h2
  | [], [], _, h1, _ => by simp [lexLtB] at h1
  | _ :: _, [], _, h1, _ => by simp [lexLtB] at h1
  | _ :: _, _ :: _, [], _, h2 => by simp [lexLtB] at h2
  | a :: as, b :: bs, c :: cs, h1, h2 => by
      simp only [lexLtB] at h1 h2 ⊢
      by_cases hab : a.toNat < b.toNat <;> by_cases hbc : b.toNat < c.toNat
      · have hac : a.toNat < c.toNat := by omega
        simp [hac]
      · simp only [hbc, if_false] at h2
        by_cases hcb : c.toNat < b.toNat
        · simp [hcb] at h2
        · have hbc' : b.toNat = c.toNat := by omega
          have hac : a.toNat < c.toNat := by omega
          simp [hac]
      · simp only [hab, if_false] at h1
        by_cases hba : b.toNat < a.toNat
        · simp [hba] at h1
        · have hac : a.toNat < c.toNat := by omega
          simp [hac]
      · simp only [hab, if_false] at h1
        simp only [hbc, if_false] at h2
        by_cases hba : b.toNat < a.toNat
        · simp [hba] at h1
        · by_cases hcb : c.toNat < b.toNat
          · simp [hcb] at h2
          · have hac1 : ¬ a.toNat < c.toNat := by omega
            have hac2 : ¬ c.toNat < a.toNat := by omega
            simp only [hac1, hac2, if_false]
            exact lexLtB_trans (by simpa [hba] using h1) (by simpa [hcb] using h2)

theorem lexLtB_eq_of_not : ∀ {l m : List Char},
    lexLtB l m = false → lexLtB m l = false → l = m
  | [], [], _, _ => rfl
  | [], _ :: _, h1, _ => by simp [lexLtB] at h1
  | _ :: _, [], _, h2 => by simp [lexLtB] at h2
  | a :: as, b :: bs, h1, h2 => by
      simp only [lexLtB] at h1 h2
      by_cases hab : a.toNat < b.toNat
      · simp [hab] at h1
      · by_cases hba : b.toNat < a.toNat
        · simp [hba] at h2
        · have hv : a.toNat = b.toNat := by omega
          have ha : a = b := by
            have : a.val = b.val := by
              unfold Char.toNat at hv
              exact UInt32.toNat.inj hv
            exact Char.ext this
          have : as = bs :=
            lexLtB_eq_of_not (by simpa [hab, hba] using h1) (by simpa [hab, hba] using h2)
          rw [ha, this]

theorem strLtB_irrefl (s : String) : strLtB s s = false := lexLtB_irrefl _

theorem strLtB_asymm {a b : String} (h : strLtB a b = true) : strLtB b a = false :=
  lexLtB_asymm h

theorem strLtB_trans {a b c : String} (h1 : strLtB a b = true) (h2 : strLtB b c = true) :
    strLtB a c = true := lexLtB_trans h1 h2

theorem strLtB_eq_of_not {a b : String} (h1 : strLtB a b = false) (h2 : strLtB b a = false) :
    a = b := by
  cases a with
  | mk l =>
      cases b with
      | mk m => exact congrArg String.mk (lexLtB_eq_of_not h1 h2)

theorem pathLtB_irrefl (p : List String) : pathLtB p p = false := by
  induction p with
  | nil => rfl
  | cons a as ih => simp [pathLtB, strLtB_irrefl, ih]

theorem pathLtB_asymm : ∀ {p q : List String}, pathLtB p q = true → pathLtB q p = false
  | [], [], h => by simp [pathLtB] at h
  | [], _ :: _, _ => by simp [pathLtB]
  | _ :: _, [], h => by simp [pathLtB] at h
  | a :: as, b :: bs, h => by
      simp only [pathLtB] at h ⊢
      by_cases h1 : strLtB a b = true
      · simp [h1, strLtB_asymm h1]
      · by_cases h2 : strLtB b a = true
        · simp [h1, h2] at h
        · simp only [h1, h2, if_false] at h ⊢
          simp only [Bool.not_eq_true] at h1 h2
          simp [h1, h2, pathLtB_asymm (by simpa [h1, h2] using h)]

theorem pathLtB_trans : ∀ {p q r : List String},
    pathLtB p q = true → pathLtB q r = true → pathLtB p r = true
  | [], _ :: _, _ :: _, _, _ => by simp [pathLtB]
  | [], _ :: _, [], _, h2 => by simp [pathLtB] at h2
  | [], [], _, h1, _ => by simp [pathLtB] at h1
  | _ :: _, [], _, h1, _ => by simp [pathLtB] at h1
  | _ :: _, _ :: _, [], _, h2 => by simp [pathLtB] at h2
  | a :: as, b :: bs, c :: cs, h1, h2 => by
      simp only [pathLtB] at h1 h2 ⊢
      by_cases hab : strLtB a b = true <;> by_cases hbc : strLtB b c = true
      · simp [strLtB_trans hab hbc]
      · simp only [hbc, if_false] at h2
        by_cases hcb : strLtB c b = true
        · simp [hcb] at h2
        · have : b = c := strLtB_eq_of_not (by simpa using hbc) (by simpa using hcb)
          subst this
          simp [hab]
      · simp only [hab, if_false] at h1
        by_cases hba : strLtB b a = true
        · simp [hba] at h1
        · have : a = b := strLtB_eq_of_not (by simpa using hab) (by simpa using hba)
          subst this
          simp [hbc]
      · simp only [hab, hbc, if_false] at h1 h2
        by_cases hba : strLtB b a = true
        · simp [hba] at h1
        · by_cases hcb : strLtB c b = true
          · simp [hcb] at h2
          · have e2 : b = c := strLtB_eq_of_not (by simpa using hbc) (by simpa using hcb)
            have e1 : a = b := strLtB_eq_of_not (by simpa using hab) (by simpa using hba)
            subst e2
            subst e1
            have h1x : pathLtB as bs = true := by simpa [strLtB_irrefl] using h1
            have h2x : pathLtB bs cs = true := by simpa [strLtB_irrefl] using h2
            simp [strLtB_irrefl, pathLtB_trans h1x h2x]

theorem pathLtB_eq_of_not : ∀ {p q : List String},
    pathLtB p q = false → pathLtB q p = false → p = q
  | [], [], _, _ => rfl
  | [], _ :: _, h1, _ => by simp [pathLtB] at h1
  | _ :: _, [], _, h2 => by simp [pathLtB] at h2
  | a :: as, b :: bs, h1, h2 => by
      simp only [pathLtB] at h1 h2
      by_cases hab : strLtB a b = true
      · simp [hab] at h1
      · by_cases hba : strLtB b a = true
        · simp [hba] at h2
        · have ha : a = b := strLtB_eq_of_not (by simpa using hab) (by simpa using hba)
          have : as = bs :=
            pathLtB_eq_of_not (by simpa [hab, hba] using h1) (by simpa [hab, hba] using h2)
          rw [ha, this]

theorem pathLt_ne {p q : List String} (h : pathLt p q) : p ≠ q := by
  intro e
  subst e
  simp [pathLt, pathLtB_irrefl] at h

theorem mem_insertPath {p q : List String} {s : List (List String)} :
    q ∈ insertPath p s ↔ q = p ∨ q ∈ s := by
  induction s with
  | nil => simp [insertPath]
  | cons r rs ih =>
      simp only [insertPath]
      split_ifs with h1 h2
      · simp [List.mem_cons]
      · simp only [List.mem_cons, ih]
        tauto
      · have hpr : p = r := pathLtB_eq_of_not (by simpa using h1) (by simpa using h2)
        subst hpr
        simp only [List.mem_cons]
        tauto

theorem sorted_insertPath {p : List String} {s : List (List String)}
    (h : List.Pairwise pathLt s) : List.Pairwise pathLt (insertPath p s) := by
  induction s with
  | nil => simp [insertPath]
  | cons r rs ih =>
      have hr : ∀ x ∈ rs, pathLt r x := (List.pairwise_cons.mp h).1
      have hrs : List.Pairwise pathLt rs := (List.pairwise_cons.mp h).2
      simp only [insertPath]
      split_ifs with h1 h2
      · refine List.Pairwise.cons ?_ h
        intro x hx
        rcases List.mem_cons.mp hx with e | hx'
        · subst e; exact h1
        · exact pathLtB_trans h1 (hr x hx')
      · refine List.Pairwise.cons ?_ (ih hrs)
        intro x hx
        rcases mem_insertPath.mp hx with e | hx'
        · subst e; exact h2
        · exact hr x hx'
      · exact h

theorem mem_foldl_insert {xs : List (List String)} :
    ∀ {s p}, p ∈ xs.foldl (fun t q => insertPath q t) s ↔ p ∈ xs ∨ p ∈ s := by
  induction xs with
  | nil => simp
  | cons x xs ih =>
      intro s p
      simp only [List.foldl_cons, ih, mem_insertPath, List.mem_cons]
      tauto

theorem sorted_foldl_insert {xs : List (List String)} :
    ∀ {s}, List.Pairwise pathLt s →
      List.Pairwise pathLt (xs.foldl (fun t q => insertPath q t) s) := by
  induction xs with
  | nil => exact fun h => h
  | cons x xs ih =>
      intro s hs
      exact ih (sorted_insertPath hs)

/-- Membership in the `BTreeSet` result is membership in the raw walk. -/
theorem mem_find_iff_walk {root : List FsEntry} {p : List String} :
    p ∈ find_scarb_workspaces root ↔ p ∈ walkChildren [] (hasVisibleMarker root) root := by
  simp [find_scarb_workspaces, mem_foldl_insert]

/-- The result list is strictly sorted in the path order (`BTreeSet` order). -/
theorem sorted_find (root : List FsEntry) :
    List.Pairwise pathLt (find_scarb_workspaces root) :=
  sorted_foldl_insert (by simp)

theorem nodup_find (root : List FsEntry) : (find_scarb_workspaces root).Nodup :=
  (sorted_find root).imp pathLt_ne

/-- Two strictly sorted lists with the same members are equal. -/
theorem sorted_eq_of_mem_iff : ∀ {l1 l2 : List (List String)},
    List.Pairwise pathLt l1 → List.Pairwise pathLt l2 →
    (∀ x, x ∈ l1 ↔ x ∈ l2) → l1 = l2
  | [], [], _, _, _ => rfl
  | [], b :: l2, _, _, hm => by
      exact absurd ((hm b).mpr (List.mem_cons_self b l2)) (List.not_mem_nil b)
  | a :: l1, [], _, _, hm => by
      exact absurd ((hm a).mp (List.mem_cons_self a l1)) (List.not_mem_nil a)
  | a :: l1, b :: l2, h1, h2, hm => by
      have ha : ∀ x ∈ l1, pathLt a x := (List.pairwise_cons.mp h1).1
      have hb : ∀ x ∈ l2, pathLt b x := (List.pairwise_cons.mp h2).1
      have hab : a = b := by
        rcases List.mem_cons.mp ((hm a).mp (List.mem_cons_self a l1)) with e | ha2
        · exact e
        · rcases List.mem_cons.mp ((hm b).mpr (List.mem_cons_self b l2)) with e | hb2
          · exact e.symm
          · have := pathLtB_asymm (hb a ha2)
            rw [ha b hb2] at this
            exact absurd this (by simp)
      subst hab
      have htail : ∀ x, x ∈ l1 ↔ x ∈ l2 := by
        intro x
        constructor
        · intro hx
          rcases List.mem_cons.mp ((hm x).mp (List.mem_cons.mpr (Or.inr hx))) with e | h
          · exact absurd e.symm (pathLt_ne (ha x hx))
          · exact h
        · intro hx
          rcases List.mem_cons.mp ((hm x).mpr (List.mem_cons.mpr (Or.inr hx))) with e | h
          · exact absurd e.symm (pathLt_ne (hb x hx))
          · exact h
      rw [sorted_eq_of_mem_iff (List.pairwise_cons.mp h1).2 (List.pairwise_cons.mp h2).2 htail]

theorem marker_not_hidden {e : FsEntry} (h : entryIsMarker e = true) :
    isHidden e.name = false := by
  cases e with
  | file n =>
      have hn : n = "Scarb.toml" := by
        simpa [entryIsMarker, FsEntry.isFile, FsEntry.name] using h
      subst hn
      decide
  | dir n cs => simp [entryIsMarker, FsEntry.isFile] at h
  | symlink n t => simp [entryIsMarker, FsEntry.isFile] at h

theorem hasVisibleMarker_cons (e : FsEntry) (es : List FsEntry) :
    hasVisibleMarker (e :: es) =
      ((!isHidden e.name && entryIsMarker e) || hasVisibleMarker es) := rfl

theorem containsMarker_cons (e : FsEntry) (es : List FsEntry) :
    containsMarker (e :: es) = (entryIsMarker e || containsMarker es) := rfl

/-- `"Scarb.toml"` never starts with a dot, so the hook's marker check over
hidden-skipped children agrees with the plain marker check. -/
theorem hasVisibleMarker_eq (cs : List FsEntry) : hasVisibleMarker cs = containsMarker cs := by
  induction cs with
  | nil => rfl
  | cons e es ih =>
      rw [hasVisibleMarker_cons, containsMarker_cons, ih]
      cases hm : entryIsMarker e with
      | false => simp
      | true => simp [marker_not_hidden hm]

theorem wfList_cons {e : FsEntry} {es : List FsEntry} (h : wfList (e :: es) = true) :
    wfEntry e = true ∧ (es.any fun x => x.name == e.name) = false ∧ wfList es = true := by
  rw [wfList, Bool.and_eq_true, Bool.and_eq_true] at h
  exact ⟨h.1.1, by simpa using h.1.2, h.2⟩

theorem wf_of_mem : ∀ {cs : List FsEntry}, wfList cs = true → ∀ {e}, e ∈ cs → wfEntry e = true := by
  intro cs
  induction cs with
  | nil =>
      intro _ e he
      simp at he
  | cons x xs ih =>
      intro h e he
      rcases List.mem_cons.mp he with rfl | h2
      · exact (wfList_cons h).1
      · exact ih (wfList_cons h).2.2 h2

theorem any_name_of_mem {cs : List FsEntry} {n : String} {ds : List FsEntry}
    (h : FsEntry.dir n ds ∈ cs) : (cs.any fun x => x.name == n) = true := by
  rw [List.any_eq_true]
  exact ⟨_, h, by simp [FsEntry.name]⟩

theorem findDir_of_mem : ∀ {cs : List FsEntry}, wfList cs = true →
    ∀ {n ds}, FsEntry.dir n ds ∈ cs → findDir cs n = some ds := by
  intro cs
  induction cs with
  | nil =>
      intro _ n ds h
      simp at h
  | cons x xs ih =>
      intro hwf n ds h
      rcases List.mem_cons.mp h with rfl | h2
      · simp [findDir]
      · cases x with
        | file m => simpa [findDir] using ih (wfList_cons hwf).2.2 h2
        | symlink m t => simpa [findDir] using ih (wfList_cons hwf).2.2 h2
        | dir m cs2 =>
            by_cases hmn : (m == n) = true
            · exfalso
              have hn : m = n := by simpa using hmn
              subst hn
              have hany := any_name_of_mem h2
              have hfalse := (wfList_cons hwf).2.1
              simp only [FsEntry.name] at hany hfalse
              rw [hfalse] at hany
              exact Bool.false_ne_true hany
            · simp only [findDir, hmn, if_false]
              exact ih (wfList_cons hwf).2.2 h2

theorem findDir_mem : ∀ {cs : List FsEntry} {n : String} {ds : List FsEntry},
    findDir cs n = some ds → FsEntry.dir n ds ∈ cs := by
  intro cs
  induction cs with
  | nil =>
      intro n ds h
      simp [findDir] at h
  | cons x xs ih =>
      intro n ds h
      cases x with
      | file m => exact List.mem_cons.mpr (Or.inr (ih (by simpa [findDir] using h)))
      | symlink m t => exact List.mem_cons.mpr (Or.inr (ih (by simpa [findDir] using h)))
      | dir m cs2 =>
          by_cases hmn : (m == n) = true
          · have hn : m = n := by simpa using hmn
            subst hn
            have : cs2 = ds := by simpa [findDir] using h
            subst this
            exact List.mem_cons_self _ _
          · simp only [findDir, hmn, if_false] at h
            exact List.mem_cons.mpr (Or.inr (ih h))

theorem walkChildren_cons (cur : List String) (pruned : Bool) (e : FsEntry)
    (es : List FsEntry) :
    walkChildren cur pruned (e :: es) =
      (if isHidden e.name then []
       else if pruned && e.isDir then []
       else walkEntry cur e) ++ walkChildren cur pruned es := by
  rw [walkChildren]

/-- In a directory whose read found the marker, the only yielded inserts
are the directory itself, once per visible marker file. -/
theorem mem_walkChildren_pruned : ∀ {cs : List FsEntry} {cur p : List String},
    p ∈ walkChildren cur true cs ↔ p = cur ∧ hasVisibleMarker cs = true := by
  intro cs
  induction cs with
  | nil =>
      intro cur p
      simp [walkChildren, hasVisibleMarker]
  | cons e es ih =>
      intro cur p
      rw [walkChildren_cons, List.mem_append, ih, hasVisibleMarker_cons]
      by_cases hh : isHidden e.name = true
      · simp [hh]
      · have hh' : isHidden e.name = false := by simpa using hh
        cases e with
        | file n =>
            have hwe : walkEntry cur (FsEntry.file n) =
                if n == "Scarb.toml" then [cur] else [] := by
              rw [walkEntry]
            simp only [FsEntry.name] at hh' ⊢
            rw [hwe]
            by_cases hn : (n == "Scarb.toml") = true
            · simp [hh', FsEntry.isDir, entryIsMarker, FsEntry.isFile, FsEntry.name, hn]
              tauto
            · have hn' : (n == "Scarb.toml") = false := by simpa using hn
              simp [hh', FsEntry.isDir, entryIsMarker, FsEntry.isFile, FsEntry.name, hn']
        | dir n ds =>
            simp only [FsEntry.name] at hh' ⊢
            simp [hh', FsEntry.isDir, entryIsMarker, FsEntry.isFile]
        | symlink n t =>
            have hwe : walkEntry cur (FsEntry.symlink n t) = [] := by
              rw [walkEntry]
            simp only [FsEntry.name] at hh' ⊢
            rw [hwe]
            simp [hh', FsEntry.isDir, entryIsMarker, FsEntry.isFile]

/-- In a directory whose read found no marker, the yielded workspaces come
from walking each non-hidden child. -/
theorem mem_walkChildren_unpruned : ∀ {cs : List FsEntry} {cur p : List String},
    p ∈ walkChildren cur false cs ↔
      ∃ e ∈ cs, isHidden e.name = false ∧ p ∈ walkEntry cur e := by
  intro cs
  induction cs with
  | nil =>
      intro cur p
      simp [walkChildren]
  | cons e es ih =>
      intro cur p
      rw [walkChildren_cons, List.mem_append, ih]
      by_cases hh : isHidden e.name = true
      · simp only [hh, if_true, List.not_mem_nil, false_or, List.mem_cons]
        constructor
        · rintro ⟨x, hx, h1, h2⟩
          exact ⟨x, Or.inr hx, h1, h2⟩
        · rintro ⟨x, hx | hx, h1, h2⟩
          · subst hx
            rw [hh] at h1
            exact absurd h1 (by simp)
          · exact ⟨x, hx, h1, h2⟩
      · have hh' : isHidden e.name = false := by simpa using hh
        simp only [hh', Bool.false_eq_true, if_false, Bool.false_and, List.mem_cons]
        constructor
        · rintro (h1 | ⟨x, hx, h2, h3⟩)
          · exact ⟨e, Or.inl rfl, hh', h1⟩
          · exact ⟨x, Or.inr hx, h2, h3⟩
        · rintro ⟨x, hx | hx, h2, h3⟩
          · subst hx
            exact Or.inl h3
          · exact Or.inr ⟨x, hx, h2, h3⟩

/-- The central lemma: under well-formedness, a path is yielded by the
pruned walk of `cs` exactly when `ReachesB` holds for its part relative to
`cur`.  Strong induction on the size of the children list. -/
theorem mem_walk_iff_reaches : ∀ (k : Nat) (cs : List FsEntry), sizeOf cs ≤ k →
    wfList cs = true → ∀ (cur p : List String),
    (p ∈ walkChildren cur (hasVisibleMarker cs) cs ↔
      ∃ rel, p = cur ++ rel ∧ ReachesB cs rel = true) := by
  intro k
  induction k with
  | zero =>
      intro cs hk
      exfalso
      cases cs with
      | nil => simp at hk
      | cons e es => simp at hk
  | succ k ih =>
      intro cs hk hwf cur p
      by_cases hM : containsMarker cs = true
      · rw [hasVisibleMarker_eq, hM, mem_walkChildren_pruned]
        constructor
        · rintro ⟨rfl, _⟩
          exact ⟨[], by simp, by simpa [ReachesB] using hM⟩
        · rintro ⟨rel, rfl, hr⟩
          cases rel with
          | nil => exact ⟨by simp, by rw [hasVisibleMarker_eq]; exact hM⟩
          | cons n rest => simp [ReachesB, hM] at hr
      · have hM' : containsMarker cs = false := by simpa using hM
        rw [hasVisibleMarker_eq, hM', mem_walkChildren_unpruned]
        constructor
        · rintro ⟨e, he, hh, hw⟩
          cases e with
          | file n =>
              by_cases hn : (n == "Scarb.toml") = true
              · exfalso
                have hmk : entryIsMarker (.file n) = true := by
                  simp [entryIsMarker, FsEntry.name, FsEntry.isFile, hn]
                have : containsMarker cs = true :=
                  List.any_eq_true.mpr ⟨_, he, hmk⟩
                rw [hM'] at this
                exact Bool.false_ne_true this
              · rw [walkEntry] at hw
                simp [hn] at hw
          | symlink n t =>
              rw [walkEntry] at hw
              exact absurd hw (by simp)
          | dir n ds =>
              rw [walkEntry] at hw
              have hszds : sizeOf ds ≤ k := by
                have h1 := List.sizeOf_lt_of_mem he
                have h2 : sizeOf (FsEntry.dir n ds) = 1 + sizeOf n + sizeOf ds := by
                  simp
                omega
              have hwfds : wfList ds = true := by
                have := wf_of_mem hwf he
                simpa [wfEntry] using this
              rcases (ih ds hszds hwfds (cur ++ [n]) p).mp hw with ⟨rel, hrel, hr⟩
              refine ⟨n :: rel, by simpa using hrel, ?_⟩
              have hfd : findDir cs n = some ds := findDir_of_mem hwf he
              simp only [FsEntry.name] at hh
              simp [ReachesB, hM', hh, hfd, hr]
        · rintro ⟨rel, rfl, hr⟩
          cases rel with
          | nil => simp [ReachesB, hM'] at hr
          | cons n rest =>
              rw [ReachesB] at hr
              rcases hfd : findDir cs n with _ | ds
              · rw [hfd] at hr
                simp at hr
              · rw [hfd] at hr
                simp only [hM', Bool.not_false, Bool.true_and, Bool.and_eq_true,
                  Bool.not_eq_true'] at hr
                have hmem : FsEntry.dir n ds ∈ cs := findDir_mem hfd
                have hszds : sizeOf ds ≤ k := by
                  have h1 := List.sizeOf_lt_of_mem hmem
                  have h2 : sizeOf (FsEntry.dir n ds) = 1 + sizeOf n + sizeOf ds := by
                    simp
                  omega
                have hwfds : wfList ds = true := by
                  have := wf_of_mem hwf hmem
                  simpa [wfEntry] using this
                refine ⟨.dir n ds, hmem, by simpa [FsEntry.name] using hr.1, ?_⟩
                rw [walkEntry]
                exact (ih ds hszds hwfds (cur ++ [n]) _).mpr ⟨rest, by simp, hr.2⟩

/-- Characterisation of `find_scarb_workspaces` on well-formed trees. -/
theorem mem_find_iff_reaches {root : List FsEntry} (hwf : wfList root = true)
    (p : List String) :
    p ∈ find_scarb_workspaces root ↔ ReachesB root p = true := by
  rw [mem_find_iff_walk, mem_walk_iff_reaches (sizeOf root) root le_rfl hwf]
  constructor
  · rintro ⟨rel, rfl, hr⟩
    simpa using hr
  · intro h
    exact ⟨p, by simp, h⟩

theorem count_eq_one_of_nodup_mem {α : Type} [BEq α] [LawfulBEq α] {l : List α} {a : α}
    (hnd : l.Nodup) (ha : a ∈ l) : l.count a = 1 := by
  induction l with
  | nil => simp at ha
  | cons b bs ih =>
      rcases List.mem_cons.mp ha with rfl | ha2
      · rw [List.count_cons_self]
        have hnb : a ∉ bs := (List.nodup_cons.mp hnd).1
        rw [List.count_eq_zero_of_not_mem hnb]
      · rw [List.count_cons_of_ne ?hne]
        case hne =>
          intro e
          subst e
          exact (List.nodup_cons.mp hnd).1 ha2
        exact ih (List.nodup_cons.mp hnd).2 ha2

theorem markerAt_nil (cs : List FsEntry) : markerAt cs [] = containsMarker cs := rfl

theorem markerAt_cons (cs : List FsEntry) (n : String) (rest : List String) :
    markerAt cs (n :: rest) =
      (match findDir cs n with
       | some ds => markerAt ds rest
       | none => false) := by
  rcases hfd : findDir cs n with _ | ds <;> simp [markerAt, dirAt, hfd]

/-- A reported path denotes an existing directory that directly contains
the marker. -/
theorem reaches_markerAt : ∀ {p : List String} {cs : List FsEntry},
    ReachesB cs p = true → markerAt cs p = true := by
  intro p
  induction p with
  | nil =>
      intro cs h
      rw [markerAt_nil]
      simpa [ReachesB] using h
  | cons n rest ih =>
      intro cs h
      rw [ReachesB] at h
      rw [markerAt_cons]
      rcases hfd : findDir cs n with _ | ds
      · rw [hfd] at h
        simp at h
      · rw [hfd] at h
        simp only [Bool.and_eq_true] at h
        exact ih h.2

/-- Along a reported path, no proper ancestor directory contains the
marker: that is exactly what lets the traversal descend. -/
theorem reaches_take : ∀ {p : List String} {cs : List FsEntry} {i : Nat},
    ReachesB cs p = true → i < p.length → markerAt cs (p.take i) = false := by
  intro p
  induction p with
  | nil =>
      intro cs i _ hi
      simp at hi
  | cons n rest ih =>
      intro cs i h hi
      rw [ReachesB] at h
      rcases hfd : findDir cs n with _ | ds
      · rw [hfd] at h
        simp at h
      · rw [hfd] at h
        simp only [Bool.and_eq_true, Bool.not_eq_true'] at h
        cases i with
        | zero =>
            rw [List.take_zero, markerAt_nil]
            exact h.1.1
        | succ i =>
            rw [List.take_succ_cons, markerAt_cons, hfd]
            exact ih h.2 (by simpa using hi)

/-- Every component of a reported path is non-hidden. -/
theorem reaches_not_hidden : ∀ {p : List String} {cs : List FsEntry} {s : String},
    ReachesB cs p = true → s ∈ p → isHidden s = false := by
  intro p
  induction p with
  | nil =>
      intro cs s _ hs
      simp at hs
  | cons n rest ih =>
      intro cs s h hs
      rw [ReachesB] at h
      rcases hfd : findDir cs n with _ | ds
      · rw [hfd] at h
        simp at h
      · rw [hfd] at h
        simp only [Bool.and_eq_true, Bool.not_eq_true'] at h
        rcases List.mem_cons.mp hs with rfl | hs'
        · exact h.1.2
        · exact ih h.2 hs'

/-- Converse of the three lemmas above: a marker directory whose proper
ancestors are all marker-free and whose path has no hidden component is
reported. -/
theorem reaches_of_conditions : ∀ {p : List String} {cs : List FsEntry},
    markerAt cs p = true →
    (∀ i, i < p.length → markerAt cs (p.take i) = false) →
    (∀ s ∈ p, isHidden s = false) →
    ReachesB cs p = true := by
  intro p
  induction p with
  | nil =>
      intro cs hm _ _
      rw [markerAt_nil] at hm
      simpa [ReachesB] using hm
  | cons n rest ih =>
      intro cs hm hanc hvis
      have h0 : containsMarker cs = false := by
        have := hanc 0 (by simp)
        rwa [List.take_zero, markerAt_nil] at this
      rw [markerAt_cons] at hm
      rcases hfd : findDir cs n with _ | ds
      · rw [hfd] at hm
        simp at hm
      · rw [hfd] at hm
        have hrest : ReachesB ds rest = true := by
          refine ih hm ?_ ?_
          · intro i hi
            have := hanc (i + 1) (by simpa using hi)
            rwa [List.take_succ_cons, markerAt_cons, hfd] at this
          · intro s hs
            exact hvis s (List.mem_cons.mpr (Or.inr hs))
        have hn : isHidden n = false := hvis n (List.mem_cons.mpr (Or.inl rfl))
        rw [ReachesB, hfd]
        simp [h0, hn, hrest]

/-- **C1** (pruning invariant): on a well-formed tree, if the directory at
path `d` directly contains `Scarb.toml`, then no strict descendant of `d`
is in the result of `find_scarb_workspaces` (a descendant of `d` is a path
`p` with `d = p.take d.length`; the only one the result may contain is `d`
itself); equivalently, the result never contains two entries of which one
is an ancestor of the other. -/
theorem pruning_invariant (root : List FsEntry) (d p q : List String)
    (hwf : wfList root = true) :
    (markerAt root d = true → p ∈ find_scarb_workspaces root →
      d = p.take d.length → p = d) ∧
    (p ∈ find_scarb_workspaces root → q ∈ find_scarb_workspaces root →
      p = q.take p.length → p = q) := by
  constructor
  · intro hm hp hd
    have hr : ReachesB root p = true := (mem_find_iff_reaches hwf p).mp hp
    by_cases hlen : d.length < p.length
    · exfalso
      have := reaches_take hr hlen
      rw [← hd, hm] at this
      simp at this
    · have : p.take d.length = p := List.take_of_length_le (by omega)
      rw [this] at hd
      exact hd.symm
  · intro hp hq hpq
    have hrp : ReachesB root p = true := (mem_find_iff_reaches hwf p).mp hp
    have hrq : ReachesB root q = true := (mem_find_iff_reaches hwf q).mp hq
    have hmp : markerAt root p = true := reaches_markerAt hrp
    by_cases hlen : p.length < q.length
    · exfalso
      have := reaches_take hrq hlen
      rw [← hpq, hmp] at this
      simp at this
    · have : q.take p.length = q := List.take_of_length_le (by omega)
      rw [this] at hpq
      exact hpq

/-- Witness for C1: on the nested scenario tree, `A` is marked, so the
nested marker directory `A/sub` is not in the result. -/
theorem pruning_invariant_witness :
    ["A", "sub"] ∉ find_scarb_workspaces exTreeNested := by
  intro hmem
  have h := (pruning_invariant exTreeNested ["A"] ["A", "sub"] ["A", "sub"]
    (by decide)).1 (by decide) hmem (by decide)
  exact absurd h (by decide)

/-- Counterexample to C2 as stated: in `exTreeHidden` the directory
`.hidden` directly contains the marker and no ancestor does, yet the
result set is empty — jwalk's default `skip_hidden = true` skips
dot-entries, so the marked directory is never visited. -/
theorem completeness_hidden_counterexample :
    markerAt exTreeHidden [".hidden"] = true ∧
    (∀ i, i < 1 → markerAt exTreeHidden ([".hidden"].take i) = false) ∧
    find_scarb_workspaces exTreeHidden = [] := by
  refine ⟨by decide, ?_, by decide⟩
  intro i hi
  have : i = 0 := by omega
  subst this
  decide

/-- **C2**, amended (completeness away from hidden names): on a well-formed
tree, every directory that directly contains the marker, has no strict
ancestor containing the marker, and — the amendment — has no dot-initial
(hidden) component in its path, appears exactly once in the result; and
every reported path is a directory that directly contains the marker (so a
tree without reachable markers yields the empty set, and the root itself is
reported, as `[]`, when it directly contains the marker). -/
theorem completeness_nonhidden (root : List FsEntry) (p : List String)
    (hwf : wfList root = true) :
    ((markerAt root p = true ∧
        (∀ i, i < p.length → markerAt root (p.take i) = false) ∧
        (∀ s ∈ p, isHidden s = false)) →
      (find_scarb_workspaces root).count p = 1) ∧
    (∀ q ∈ find_scarb_workspaces root, markerAt root q = true) := by
  constructor
  · rintro ⟨hm, hanc, hvis⟩
    have hr : ReachesB root p = true := reaches_of_conditions hm hanc hvis
    have hmem : p ∈ find_scarb_workspaces root := (mem_find_iff_reaches hwf p).mpr hr
    exact count_eq_one_of_nodup_mem (nodup_find root) hmem
  · intro q hq
    exact reaches_markerAt ((mem_find_iff_reaches hwf q).mp hq)

/-- Witness for C2: on the scenario tree, `A` is marked, ancestor-free and
non-hidden, and is reported exactly once. -/
theorem completeness_nonhidden_witness :
    (find_scarb_workspaces exTreeNested).count ["A"] = 1 :=
  (completeness_nonhidden exTreeNested ["A"] (by decide)).1
    ⟨by decide, by
      intro i hi
      have hi1 : i < 1 := by simpa using hi
      have : i = 0 := by omega
      subst this
      decide, by decide⟩

theorem ForestPerm.marker_eq {cs cs' : List FsEntry} (h : ForestPerm cs cs') :
    hasVisibleMarker cs = hasVisibleMarker cs' := by
  induction h with
  | nil => rfl
  | consFile n _ ih => rw [hasVisibleMarker_cons, hasVisibleMarker_cons, ih]
  | consSymlink n t _ ih => rw [hasVisibleMarker_cons, hasVisibleMarker_cons, ih]
  | consDir n _ _ _ ih =>
      rw [hasVisibleMarker_cons, hasVisibleMarker_cons, ih]
      simp [entryIsMarker, FsEntry.isFile, FsEntry.name]
  | swap e1 e2 cs =>
      rw [hasVisibleMarker_cons, hasVisibleMarker_cons, hasVisibleMarker_cons,
        hasVisibleMarker_cons]
      rw [← Bool.or_assoc, ← Bool.or_assoc, Bool.or_comm (!isHidden e1.name && entryIsMarker e1)]
  | trans _ _ ih1 ih2 => rw [ih1, ih2]

theorem walkChildren_perm {cs cs' : List FsEntry} (h : ForestPerm cs cs') :
    ∀ (cur : List String) (b : Bool),
      (walkChildren cur b cs).Perm (walkChildren cur b cs') := by
  induction h with
  | nil => intro cur b; exact List.Perm.refl _
  | consFile n _ ih =>
      intro cur b
      rw [walkChildren_cons, walkChildren_cons]
      exact List.Perm.append_left _ (ih cur b)
  | consSymlink n t _ ih =>
      intro cur b
      rw [walkChildren_cons, walkChildren_cons]
      exact List.Perm.append_left _ (ih cur b)
  | consDir n hds _ ihds ihcs =>
      intro cur b
      rw [walkChildren_cons, walkChildren_cons]
      refine List.Perm.append ?_ (ihcs cur b)
      simp only [FsEntry.name, FsEntry.isDir]
      by_cases hh : isHidden n = true
      · simp [hh]
      · have hh' : isHidden n = false := by simpa using hh
        cases b with
        | true => simp [hh']
        | false =>
            simp only [hh', Bool.false_eq_true, if_false, Bool.false_and]
            rw [walkEntry, walkEntry, ForestPerm.marker_eq hds]
            exact ihds (cur ++ [n]) _
  | swap e1 e2 cs =>
      intro cur b
      rw [walkChildren_cons, walkChildren_cons, walkChildren_cons, walkChildren_cons]
      rw [← List.append_assoc, ← List.append_assoc]
      exact List.Perm.append_right _ List.perm_append_comm
  | trans _ _ ih1 ih2 =>
      intro cur b
      exact (ih1 cur b).trans (ih2 cur b)

/-- **C5** (deterministic, sorted output): the result of
`find_scarb_workspaces` is strictly sorted in the lexicographic path order
(the `BTreeSet<PathBuf>` order), and reading the same tree in any other
filesystem iteration order produces the identical list; with the walk
being a pure function of the tree, two runs on an unchanged tree therefore
yield identical, identically-ordered output. -/
theorem deterministic_sorted_output (root root' : List FsEntry)
    (h : ForestPerm root root') :
    List.Pairwise pathLt (find_scarb_workspaces root) ∧
    find_scarb_workspaces root = find_scarb_workspaces root' := by
  refine ⟨sorted_find root, ?_⟩
  have hflag : hasVisibleMarker root = hasVisibleMarker root' := ForestPerm.marker_eq h
  apply sorted_eq_of_mem_iff (sorted_find root) (sorted_find root')
  intro x
  rw [mem_find_iff_walk, mem_find_iff_walk, ← hflag]
  exact (walkChildren_perm h [] (hasVisibleMarker root)).mem_iff

/-- Witness for C5: swapping the two top-level directories leaves the
output unchanged. -/
theorem deterministic_sorted_output_witness :
    find_scarb_workspaces
      [FsEntry.dir "B" [FsEntry.file "Scarb.toml"], FsEntry.dir "A" [FsEntry.file "Scarb.toml"]] =
    find_scarb_workspaces
      [FsEntry.dir "A" [FsEntry.file "Scarb.toml"], FsEntry.dir "B" [FsEntry.file "Scarb.toml"]] :=
  (deterministic_sorted_output _ _ (ForestPerm.swap _ _ [])).2

theorem hasVisibleMarker_strip (cs : List FsEntry) :
    hasVisibleMarker (stripSymlinkList cs) = hasVisibleMarker cs := by
  induction cs with
  | nil => rfl
  | cons e es ih =>
      rw [stripSymlinkList, hasVisibleMarker_cons, hasVisibleMarker_cons, ih]
      cases e <;> rfl

theorem walkChildren_strip : ∀ (k : Nat) (cs : List FsEntry), sizeOf cs ≤ k →
    ∀ (cur : List String) (b : Bool),
      walkChildren cur b (stripSymlinkList cs) = walkChildren cur b cs := by
  intro k
  induction k with
  | zero =>
      intro cs hk
      exfalso
      cases cs with
      | nil => simp at hk
      | cons e es => simp at hk
  | succ k ih =>
      intro cs hk cur b
      cases cs with
      | nil => rfl
      | cons e es =>
          have hsz : sizeOf es ≤ k := by
            simp at hk
            omega
          rw [stripSymlinkList, walkChildren_cons, walkChildren_cons, ih es hsz]
          cases e with
          | file n => rfl
          | symlink n t => rfl
          | dir n ds =>
              have hszds : sizeOf ds ≤ k := by
                simp at hk
                omega
              simp only [stripSymlinkEntry, FsEntry.name, FsEntry.isDir]
              rw [walkEntry, walkEntry, hasVisibleMarker_strip, ih ds hszds]

/-- **C9**, amended (symlinks are not followed): with jwalk's default
`follow_links = false`, the traversal never descends through a symlink
entry, so the result is unchanged when every symlink target is replaced by
an empty directory — a marker reachable only through a symlinked directory
is never discovered. -/
theorem symlinks_never_descended (root : List FsEntry) :
    find_scarb_workspaces (stripSymlinkList root) = find_scarb_workspaces root := by
  unfold find_scarb_workspaces
  rw [hasVisibleMarker_strip, walkChildren_strip (sizeOf root) root le_rfl]

/-- Counterexample to C9 as stated: in `exTreeSymlink` the marker file is
reachable only through the symlinked directory `link` whose target does
contain the marker, yet nothing is discovered. -/
theorem symlink_descent_counterexample :
    containsMarker [FsEntry.file "Scarb.toml"] = true ∧
    find_scarb_workspaces exTreeSymlink = [] := by
  decide

theorem walk_extends_cur : ∀ (k : Nat) (cs : List FsEntry), sizeOf cs ≤ k →
    ∀ {cur : List String} {b : Bool} {p : List String},
      p ∈ walkChildren cur b cs → ∃ rel, p = cur ++ rel := by
  intro k
  induction k with
  | zero =>
      intro cs hk
      exfalso
      cases cs with
      | nil => simp at hk
      | cons e es => simp at hk
  | succ k ih =>
      intro cs hk cur b p hp
      cases cs with
      | nil => simp [walkChildren] at hp
      | cons e es =>
          have hsz : sizeOf es ≤ k := by
            simp at hk
            omega
          rw [walkChildren_cons, List.mem_append] at hp
          rcases hp with hp | hp
          · by_cases hh : isHidden e.name = true
            · rw [hh] at hp
              simp at hp
            · have hh' : isHidden e.name = false := by simpa using hh
              rw [hh'] at hp
              simp only [Bool.false_eq_true, if_false] at hp
              by_cases hb : (b && e.isDir) = true
              · rw [hb] at hp
                simp at hp
              · have hb' : (b && e.isDir) = false := by simpa using hb
                rw [hb'] at hp
                simp only [Bool.false_eq_true, if_false] at hp
                cases e with
                | file n =>
                    rw [walkEntry] at hp
                    by_cases hn : (n == "Scarb.toml") = true
                    · rw [if_pos hn] at hp
                      rcases List.mem_singleton.mp hp with rfl
                      exact ⟨[], by simp⟩
                    · rw [if_neg hn] at hp
                      simp at hp
                | symlink n t =>
                    rw [walkEntry] at hp
                    simp at hp
                | dir n ds =>
                    rw [walkEntry] at hp
                    have hszds : sizeOf ds ≤ k := by
                      simp at hk
                      omega
                    rcases ih ds hszds hp with ⟨rel, hrel⟩
                    exact ⟨n :: rel, by simpa using hrel⟩
          · exact ih es hsz hp

/-- **C10**: a directory entry named `Scarb.toml` whose file type is not a
regular file (a directory, or a symlink — which under the non-following
traversal has the symlink file type) is not treated as a marker: the
children list counts as marker-free, the parent directory is not recorded
as a workspace, and the children are walked exactly as in the unpruned
case, so subdirectories are still descended. -/
theorem non_regular_marker_ignored (cs : List FsEntry) (cur : List String)
    (h : ∀ e ∈ cs, e.isFile = true → e.name ≠ "Scarb.toml") :
    containsMarker cs = false ∧
    hasVisibleMarker cs = false ∧
    cur ∉ walkChildren cur (hasVisibleMarker cs) cs ∧
    walkChildren cur (hasVisibleMarker cs) cs = walkChildren cur false cs := by
  have hcm : containsMarker cs = false := by
    rw [containsMarker]
    rw [List.any_eq_false]
    intro e he
    intro hmk
    have hmk2 : e.name = "Scarb.toml" ∧ e.isFile = true := by
      simpa [entryIsMarker] using hmk
    exact h e he hmk2.2 hmk2.1
  have hvm : hasVisibleMarker cs = false := by
    rw [hasVisibleMarker_eq, hcm]
  refine ⟨hcm, hvm, ?_, by rw [hvm]⟩
  rw [hvm]
  intro hmem
  rcases mem_walkChildren_unpruned.mp hmem with ⟨e, he, hh, hw⟩
  cases e with
  | file n =>
      rw [walkEntry] at hw
      by_cases hn : (n == "Scarb.toml") = true
      · exact h _ he rfl (by simpa using hn)
      · rw [if_neg hn] at hw
        simp at hw
  | symlink n t =>
      rw [walkEntry] at hw
      simp at hw
  | dir n ds =>
      rw [walkEntry] at hw
      rcases walk_extends_cur (sizeOf ds) ds le_rfl hw with ⟨rel, hrel⟩
      have h2 := congrArg List.length hrel
      simp [List.length_append] at h2

/-- Witness for C10: with a symlink and a directory both named
`Scarb.toml`, the parent is not recorded, nothing is pruned, and the real
nested workspace `sub` is still found. -/
theorem non_regular_marker_ignored_witness :
    containsMarker exTreeFakeMarkers = false ∧
    hasVisibleMarker exTreeFakeMarkers = false ∧
    [] ∉ walkChildren [] (hasVisibleMarker exTreeFakeMarkers) exTreeFakeMarkers ∧
    walkChildren [] (hasVisibleMarker exTreeFakeMarkers) exTreeFakeMarkers =
      walkChildren [] false exTreeFakeMarkers :=
  non_regular_marker_ignored exTreeFakeMarkers [] (by decide)

theorem countFailures_aux : ∀ (rs : List ((List String) × JobStatus)) (a : Nat),
    rs.foldl (fun acc r => if isSuccess r.2 then acc else acc + 1) a
      = a + rs.countP fun r => !isSuccess r.2 := by
  intro rs
  induction rs with
  | nil =>
      intro a
      simp [List.countP_nil]
  | cons r rs ih =>
      intro a
      rw [List.foldl_cons, List.countP_cons, ih]
      by_cases hs : isSuccess r.2 = true
      · simp [hs]
      · have hs' : isSuccess r.2 = false := by simpa using hs
        simp [hs']
        omega

theorem countFailures_eq (rs : List ((List String) × JobStatus)) :
    countFailures rs = rs.countP fun r => !isSuccess r.2 := by
  rw [countFailures, countFailures_aux]
  omega

theorem runMain_exitCode_confirmed (ws : List (List String))
    (f : List String → JobStatus) :
    (runMain ws true f).exitCode =
      if countFailures (mainResults ws f) = 0 then 0 else 1 := by
  rcases ws with _ | ⟨w0, ws'⟩
  · simp [runMain, mainResults, countFailures]
  · simp [runMain]

/-- **C3** (aggregate correctness): for a confirmed run over a fixed set
of job outcomes, the exit code is 0 iff every outcome is a success
(vacuously including the empty, "nothing found" case); the failure count
equals exactly the number of non-success outcomes; and with at least one
failure the exit code is 1. -/
theorem aggregate_exit_correct (ws : List (List String))
    (f : List String → JobStatus) :
    ((runMain ws true f).exitCode = 0 ↔ ∀ w ∈ ws, isSuccess (f w) = true) ∧
    countFailures (mainResults ws f) = (ws.countP fun w => !isSuccess (f w)) ∧
    (0 < countFailures (mainResults ws f) → (runMain ws true f).exitCode = 1) := by
  have hcf : countFailures (mainResults ws f) = ws.countP fun w => !isSuccess (f w) := by
    rw [countFailures_eq]
    unfold mainResults
    rw [List.countP_map]
    rfl
  refine ⟨?_, hcf, ?_⟩
  · rw [runMain_exitCode_confirmed, hcf]
    by_cases h : (ws.countP fun w => !isSuccess (f w)) = 0
    · simp only [h, if_pos rfl]
      constructor
      · intro _ w hw
        have := List.countP_eq_zero.mp h w hw
        simpa using this
      · intro _
        rfl
    · simp only [h, if_neg h]
      constructor
      · intro h10
        exact absurd h10 one_ne_zero
      · intro hall
        exfalso
        apply h
        rw [List.countP_eq_zero]
        intro a ha
        simp [hall a ha]
  · intro hpos
    rw [runMain_exitCode_confirmed]
    have hne2 : countFailures (mainResults ws f) ≠ 0 := by omega
    simp [hne2]

/-- Witness for C3: one workspace whose clean exits nonzero gives exit
code 1. -/
theorem aggregate_exit_correct_witness :
    (runMain [["a"]] true fun _ => JobStatus.exited false).exitCode = 1 :=
  (aggregate_exit_correct [["a"]] fun _ => JobStatus.exited false).2.2 (by decide)

theorem parse_jobs_pos {env : Option String} {J : Nat}
    (h : parse_jobs_from_env env = some J) : 0 < J := by
  rcases env with _ | raw
  · simp [parse_jobs_from_env] at h
  · simp only [parse_jobs_from_env] at h
    rcases hp : parseUsize (rustTrim raw) with _ | v
    · rw [hp] at h
      simp at h
    · rw [hp] at h
      rcases v with _ | v
      · simp at h
      · simp at h
        omega

/-- **C4** (job bound computation): for a non-empty workspace set of size
`n`, the effective bound is `min J n` when `SCARB_CLEAN_JOBS` parses to a
positive `J` and `n` otherwise; the bound is always between 1 and `n`; a
value parsing to zero, or failing to parse (non-integer or negative), is
ignored — `parse_jobs_from_env` returns `None` (after a diagnostic) rather
than aborting, so the default applies. -/
theorem effective_jobs_spec (env : Option String) (n : Nat) (h : 0 < n) :
    (∀ J, parse_jobs_from_env env = some J → 0 < J ∧ effective_jobs env n = min J n) ∧
    (parse_jobs_from_env env = none → effective_jobs env n = n) ∧
    (1 ≤ effective_jobs env n ∧ effective_jobs env n ≤ n) ∧
    (∀ raw, env = some raw → parseUsize (rustTrim raw) = some 0 →
      parse_jobs_from_env env = none) ∧
    (∀ raw, env = some raw → parseUsize (rustTrim raw) = none →
      parse_jobs_from_env env = none) := by
  have hmax : max n 1 = n := Nat.max_eq_left h
  refine ⟨?_, ?_, ?_, ?_, ?_⟩
  · intro J hJ
    refine ⟨parse_jobs_pos hJ, ?_⟩
    rw [effective_jobs, hJ, Option.getD_some, hmax]
  · intro hnone
    rw [effective_jobs, hnone, Option.getD_none, hmax, min_self]
  · constructor
    · rcases hp : parse_jobs_from_env env with _ | J
      · rw [effective_jobs, hp, Option.getD_none, hmax, min_self]
        exact h
      · rw [effective_jobs, hp, Option.getD_some, hmax]
        exact le_min (parse_jobs_pos hp) h
    · rw [effective_jobs, hmax]
      exact min_le_right _ _
  · rintro raw rfl hz
    simp only [parse_jobs_from_env]
    rw [hz]
  · rintro raw rfl hz
    simp only [parse_jobs_from_env]
    rw [hz]

/-- Witness for C4: a valid `"2"` clamps to `min 2 3`; `"0"` and `"-1"`
fall back to the default `n = 3`. -/
theorem effective_jobs_spec_witness :
    effective_jobs (some "2") 3 = min 2 3 ∧
    effective_jobs (some "0") 3 = 3 ∧
    effective_jobs (some "-1") 3 = 3 :=
  ⟨((effective_jobs_spec (some "2") 3 (by decide)).1 2 (by decide)).2,
   (effective_jobs_spec (some "0") 3 (by decide)).2.1 (by decide),
   (effective_jobs_spec (some "-1") 3 (by decide)).2.1 (by decide)⟩

/-- **C7** (invocation shape): every workspace of a confirmed run receives
the invocation `scarb --manifest-path <w>/Scarb.toml clean`, with working
directory `w` and with `SCARB_MANIFEST_PATH` removed from the child's
environment; and every spawned invocation is of that shape for some
workspace. -/
theorem clean_invocation_shape (ws : List (List String))
    (f : List String → JobStatus) (w : List String) (hw : w ∈ ws) :
    cleanCommand w ∈ (runMain ws true f).invocations ∧
    (cleanCommand w).program = "scarb" ∧
    (cleanCommand w).args =
      [Arg.lit "--manifest-path", Arg.path (w ++ ["Scarb.toml"]), Arg.lit "clean"] ∧
    (cleanCommand w).currentDir = w ∧
    "SCARB_MANIFEST_PATH" ∈ (cleanCommand w).envRemoved ∧
    ∀ c ∈ (runMain ws true f).invocations, ∃ v ∈ ws, c = cleanCommand v := by
  have hne : ws.isEmpty = false := by
    cases ws
    · simp at hw
    · rfl
  refine ⟨?_, rfl, rfl, rfl, by simp [cleanCommand], ?_⟩
  · simp only [runMain, hne, Bool.false_eq_true, if_false, Bool.not_true]
    exact List.mem_map_of_mem _ hw
  · intro c hc
    simp only [runMain, hne, Bool.false_eq_true, if_false, Bool.not_true] at hc
    rcases List.mem_map.mp hc with ⟨v, hv, rfl⟩
    exact ⟨v, hv, rfl⟩

/-- Witness for C7: the single workspace `ws1` receives its invocation. -/
theorem clean_invocation_shape_witness :
    cleanCommand ["ws1"] ∈
      (runMain [["ws1"]] true fun _ => JobStatus.exited true).invocations :=
  (clean_invocation_shape [["ws1"]] (fun _ => JobStatus.exited true) ["ws1"]
    (by decide)).1

/-- **C8** (confirmation gate): with a successfully read line, the run
proceeds iff the line, trimmed and ASCII-lowercased, is `y` or `yes`
(i.e. equals `"y"` or `"yes"` case-insensitively); any read failure — and
a failed prompt flush — is a negative answer; and a negative answer makes
the run abort cleanly: no invocations, exit code 0. -/
theorem confirmation_gate (line : String) (b : Bool) (r : Option String)
    (ws : List (List String)) (f : List String → JobStatus) :
    (ask_for_confirmation true (some line) = true ↔
      (toAsciiLowercase (rustTrim line) = "y" ∨
        toAsciiLowercase (rustTrim line) = "yes")) ∧
    ask_for_confirmation b none = false ∧
    ask_for_confirmation false r = false ∧
    (runMain ws false f).invocations = [] ∧
    (runMain ws false f).exitCode = 0 := by
  refine ⟨?_, ?_, ?_, ?_, ?_⟩
  · simp [ask_for_confirmation]
  · cases b <;> simp [ask_for_confirmation]
  · simp [ask_for_confirmation]
  · rcases ws with _ | ⟨w0, ws'⟩ <;> simp [runMain]
  · rcases ws with _ | ⟨w0, ws'⟩ <;> simp [runMain]

/-- Witness for C8: `" YES "` is accepted; `"no"` is not. -/
theorem confirmation_gate_witness :
    ask_for_confirmation true (some " YES ") = true ∧
    (ask_for_confirmation true (some "no") = true →
      (toAsciiLowercase (rustTrim "no") = "y" ∨ toAsciiLowercase (rustTrim "no") = "yes")) :=
  ⟨(confirmation_gate " YES " true none [] fun _ => JobStatus.exited true).1.mpr
      (Or.inr (by decide)),
   (confirmation_gate "no" true none [] fun _ => JobStatus.exited true).1.mp⟩

theorem perm_cons_erase_of_mem {α : Type} [BEq α] [LawfulBEq α] {a : α} {l : List α}
    (h : a ∈ l) : l.Perm (a :: l.erase a) := by
  induction l with
  | nil => simp at h
  | cons b bs ih =>
      by_cases hb : (b == a) = true
      · have : b = a := by simpa using hb
        subst this
        rw [List.erase_cons_head]
      · have herase : (b :: bs).erase a = b :: bs.erase a := by
          rw [List.erase_cons]
          simp [hb]
        rw [herase]
        rcases List.mem_cons.mp h with rfl | h2
        · simp at hb
        · exact List.Perm.trans (List.Perm.cons b (ih h2)) (List.Perm.swap _ _ _)

theorem perm_count_eq {α : Type} [BEq α] {l1 l2 : List α} (h : l1.Perm l2) (a : α) :
    l1.count a = l2.count a := by
  induction h with
  | nil => rfl
  | cons x _ ih => rw [List.count_cons, List.count_cons, ih]
  | swap x y l =>
      rw [List.count_cons, List.count_cons, List.count_cons, List.count_cons]
      omega
  | trans _ _ ih1 ih2 => rw [ih1, ih2]

theorem pool_invariant {w : Nat} {ws : List (List String)} {s : PoolState}
    (h : Relation.ReflTransGen (PoolStep w) ⟨ws, [], []⟩ s) :
    s.inFlight.length ≤ w ∧ (s.done ++ (s.inFlight ++ s.pending)).Perm ws := by
  induction h with
  | refl =>
      refine ⟨by simp, ?_⟩
      simp
  | tail hr hstep ih =>
      cases hstep with
      | start t rest fl d hlt =>
          refine ⟨by simpa using hlt, ?_⟩
          refine List.Perm.trans ?_ ih.2
          simp only
          refine List.Perm.append_left d ?_
          show (t :: (fl ++ rest)).Perm (fl ++ t :: rest)
          exact List.perm_middle.symm
      | finish t p fl d hmem =>
          constructor
          · calc (fl.erase t).length ≤ fl.length := (List.erase_sublist t fl).length_le
              _ ≤ w := ih.1
          · refine List.Perm.trans ?_ ih.2
            simp only
            have h1 : ((t :: d) ++ (fl.erase t ++ p)).Perm
                (d ++ ((t :: fl.erase t) ++ p)) := by
              show (t :: (d ++ (fl.erase t ++ p))).Perm (d ++ (t :: (fl.erase t ++ p)))
              exact List.perm_middle.symm
            have h2 : (d ++ ((t :: fl.erase t) ++ p)).Perm (d ++ (fl ++ p)) :=
              List.Perm.append_left d
                (List.Perm.append_right p (perm_cons_erase_of_mem hmem).symm)
            exact h1.trans h2

/-- **C6** (job bound, hard cap, exactly-once): starting the pool sized to
`effective_jobs` on the workspace list, every reachable scheduler state
has at most `effective_jobs` (= `min J N` for a valid override `J`)
invocations in flight, the three queues always hold exactly the original
workspaces, and a terminal state has executed each workspace exactly
once. -/
theorem pool_bound_and_exactly_once (ws : List (List String)) (env : Option String)
    (s : PoolState) (hne : ws ≠ [])
    (h : PoolReach (effective_jobs env ws.length) ⟨ws, [], []⟩ s) :
    s.inFlight.length ≤ effective_jobs env ws.length ∧
    (∀ J, parse_jobs_from_env env = some J →
      s.inFlight.length ≤ min J ws.length) ∧
    (s.done ++ (s.inFlight ++ s.pending)).Perm ws ∧
    (s.pending = [] → s.inFlight = [] → ws.Nodup →
      ∀ p ∈ ws, s.done.count p = 1) := by
  have hinv := pool_invariant h
  have hn : 0 < ws.length := by
    cases ws
    · simp at hne
    · simp
  refine ⟨hinv.1, ?_, hinv.2, ?_⟩
  · intro J hJ
    have hj := (effective_jobs_spec env ws.length hn).1 J hJ
    rw [← hj.2]
    exact hinv.1
  · intro hp hf hnd p hp2
    have hperm : s.done.Perm ws := by
      have := hinv.2
      rw [hp, hf] at this
      simpa using this
    rw [perm_count_eq hperm]
    exact count_eq_one_of_nodup_mem hnd hp2

/-- Witness for C6: with one workspace and no override, after the start
step exactly one invocation is in flight, within the bound. -/
theorem pool_bound_witness :
    ([["a"]] : List (List String)).length ≤
      effective_jobs none ([["a"]] : List (List String)).length :=
  (pool_bound_and_exactly_once [["a"]] none ⟨[], [["a"]], []⟩ (by decide)
    (Relation.ReflTransGen.single (PoolStep.start ["a"] [] [] [] (by decide)))).1

end ScarbCleanAll
